import Mathlib

/-!
Verification of the L2-Agent repository (Level-3 LiteLLM agent).

This file shallowly embeds the agent loop of `src/Level-3/agent.py`
(`_run_non_streaming`, the streaming tool-call accumulator of
`_run_streaming`) and the tool dispatch of `src/Level-3/tools.py`
(`execute_tool`), and proves or refutes the frozen claims about them.

Conventions of the embedding:
* Python strings are Lean `String`s; `Optional[str]` is `Option String`.
* Python truthiness tests on optional strings (`if delta.content:`,
  `if tc_delta.id:` …) are embedded as "is `some` and non-empty".
* Exceptions are embedded as `Except` / explicit error results.
* External effects (the LLM endpoint, the network tools, `json.loads`)
  are parameters of the embedding: the model is an oracle mapping the
  model-call index to a reply, tools and JSON parsing live in a
  `ToolEnv`.
-/

namespace L2Agent

/-! ## Data model: streaming fragments (OpenAI chunk deltas)

Embeds the shapes consumed by the accumulation loop of
`_run_streaming` (agent.py lines 219-255): each chunk field
`choices[0].delta` carries an optional `content` string and an optional
list of tool-call deltas `{index, id, function: {name, arguments}}`. -/

structure FunctionDelta where
  name : Option String
  arguments : Option String
  deriving DecidableEq, Repr

structure ToolCallDelta where
  index : Option Nat
  id : Option String
  function : Option FunctionDelta
  deriving DecidableEq, Repr

structure StreamFragment where
  content : Option String
  tool_calls : List ToolCallDelta
  deriving DecidableEq, Repr

/-- One in-progress slot of `tool_calls_data`
(agent.py lines 241-245: `{"id": None, "type": "function",
"function": {"name": "", "arguments": ""}}`; the constant
`"type": "function"` field is omitted). -/
structure Slot where
  id : Option String
  name : String
  arguments : String
  deriving DecidableEq, Repr

def defaultSlot : Slot := ⟨none, "", ""⟩

/-- A finalized tool call as used by the dispatch loops: `id` is
`Option String` because the streaming path dispatches slots whose id
was never set. -/
structure ToolCallRec where
  id : Option String
  name : String
  arguments : String
  deriving DecidableEq, Repr

def slotToRec (s : Slot) : ToolCallRec := ⟨s.id, s.name, s.arguments⟩

/-- Python truthiness of an optional string (`if x:`): `some` and
non-empty. -/
def strTruthy : Option String → Bool
  | none => false
  | some s => s ≠ ""

/-! ## The streaming accumulator (agent.py lines 219-255) -/

/-- `while len(tool_calls_data) <= tc_delta.index: append(default)`
(agent.py lines 240-245). -/
def padTo (slots : List Slot) (i : Nat) : List Slot :=
  slots ++ List.replicate (i + 1 - slots.length) defaultSlot

/-- `if tc_delta.id: current_tool_call["id"] = tc_delta.id`
(agent.py lines 249-250): a non-empty id delta overwrites the slot id. -/
def applyIdDelta (s : Slot) (idd : Option String) : Slot :=
  match idd with
  | some v => if v = "" then s else { s with id := some v }
  | none => s

/-- `if tc_delta.function:` block (agent.py lines 251-255): a non-empty
name delta overwrites the name, a non-empty arguments delta is appended. -/
def applyFunctionDelta (s : Slot) (fd : Option FunctionDelta) : Slot :=
  match fd with
  | none => s
  | some f =>
    let s1 := match f.name with
      | some n => if n = "" then s else { s with name := n }
      | none => s
    match f.arguments with
    | some a => if a = "" then s1 else { s1 with arguments := s1.arguments ++ a }
    | none => s1

def applySlotDelta (s : Slot) (d : ToolCallDelta) : Slot :=
  applyFunctionDelta (applyIdDelta s d.id) d.function

/-- Processing of one `tc_delta` against `tool_calls_data`
(agent.py lines 237-255); deltas with `index is None` are skipped. -/
def processToolCallDelta (slots : List Slot) (d : ToolCallDelta) : List Slot :=
  match d.index with
  | none => slots
  | some i =>
    let padded := padTo slots i
    padded.set i (applySlotDelta (padded.getD i defaultSlot) d)

/-- The accumulator state: `accumulated_content` and `tool_calls_data`
(agent.py lines 220-221). -/
structure StreamState where
  accumulated_content : String
  tool_calls_data : List Slot
  deriving DecidableEq, Repr

/-- Processing of one chunk (agent.py lines 224-255). -/
def processFragment (st : StreamState) (f : StreamFragment) : StreamState :=
  { accumulated_content :=
      match f.content with
      | some c => if c = "" then st.accumulated_content else st.accumulated_content ++ c
      | none => st.accumulated_content
    tool_calls_data := f.tool_calls.foldl processToolCallDelta st.tool_calls_data }

/-- The whole accumulation loop, starting from
`accumulated_content = ""`, `tool_calls_data = []`. -/
def accumulateStream (fs : List StreamFragment) : StreamState :=
  fs.foldl processFragment ⟨"", []⟩

/-- The stream-end decision `if tool_calls_data and any(tc["id"] for tc
in tool_calls_data)` (agent.py line 258): when it holds, ALL of
`tool_calls_data` is finalized and dispatched; otherwise no tool call
is finalized. -/
def finalizedToolCalls (slots : List Slot) : List ToolCallRec :=
  if !slots.isEmpty && slots.any (fun s => strTruthy s.id) then
    slots.map slotToRec
  else []

/-- The reconstructed logical response of a streamed exchange:
accumulated content plus the finalized tool calls. -/
def streamResult (fs : List StreamFragment) : String × List ToolCallRec :=
  let st := accumulateStream fs
  (st.accumulated_content, finalizedToolCalls st.tool_calls_data)

/-! ## JSON values, tool dispatch (tools.py) and the environment -/

/-- A minimal JSON value universe, enough for the payloads the loop
itself constructs and inspects (`{"error": <message>}`); tool payloads
and parsed arguments are otherwise opaque to the loop, so one level of
object structure with string leaves suffices. -/
inductive JVal where
  | jstr (s : String)
  | jobj (fields : List (String × String))
  deriving DecidableEq, Repr

/-- A parsed JSON object of tool arguments (the result of
`json.loads` on an arguments text), opaque to the loop. -/
abbrev Args := List (String × String)

/-- The registered tool names: the keys of `tool_map` in
`ToolRegistry.execute_tool` (tools.py lines 292-298). -/
def toolMapNames : List String :=
  ["get_weather", "book_recs", "random_joke", "random_dog", "trivia"]

/-- External behaviour the loop depends on: the tool callables
(`.error` = the callable raised) and `json.loads` on an arguments text
(`none` = `json.loads` raises on malformed JSON). -/
structure ToolEnv where
  impl : String → Args → Except String JVal
  parse : String → Option Args

/-- `ToolRegistry.execute_tool` (tools.py lines 278-306): raises
`ValueError` (embedded as `.error`) for a tool name not in `tool_map`;
any fault raised by the callable itself is caught inside and converted
to an `{"error": "Tool execution failed: ..."}` payload (`.ok`). -/
def execute_tool (env : ToolEnv) (tool_name : String) (tool_input : Args) :
    Except String JVal :=
  if tool_name ∉ toolMapNames then
    Except.error ("Unknown tool: " ++ tool_name)
  else
    match env.impl tool_name tool_input with
    | Except.ok v => Except.ok v
    | Except.error e =>
      Except.ok (JVal.jobj [("error", "Tool execution failed: " ++ e)])

/-! ## Conversation messages and the agent loop (agent.py) -/

/-- The message dicts appended to `messages` by `_run_non_streaming` /
`_run_streaming`. Tool-role content is the (to-be-dumped) JSON value;
`tool_call_id` is optional because the streaming path dispatches slots
whose id was never set. Non-streaming replies always carry `some` ids. -/
inductive Msg where
  | system (content : String)
  | user (content : String)
  | assistant (content : Option String) (tool_calls : List ToolCallRec)
  | tool (tool_call_id : Option String) (name : String) (content : JVal)
  deriving DecidableEq, Repr

/-- The exceptions that can escape an iteration of the loop (the
`except Exception ... raise` at agent.py lines 171-174 re-raises them
out of `run`). -/
inductive AgentErr where
  | modelError (e : String)
  | parseError (argText : String)
  deriving DecidableEq, Repr

/-- `json.loads(tool_call.function.arguments) if
tool_call.function.arguments else {}` (agent.py line 138 / 278):
empty arguments text parses to the empty object, otherwise
`json.loads` runs (and may raise: `none`). -/
def parseToolArgs (env : ToolEnv) (argsText : String) : Option Args :=
  if argsText = "" then some [] else env.parse argsText

/-- The tool result recorded for one dispatched call: the payload on
success, or the agent-level catch `result = {"error": str(e)}`
(agent.py lines 144-151 / 313-343) when `execute_tool` raised. -/
def toolResultOf (env : ToolEnv) (tc : ToolCallRec) (args : Args) : JVal :=
  match execute_tool env tc.name args with
  | Except.ok v => v
  | Except.error e => JVal.jobj [("error", e)]

/-- The per-iteration tool-execution loop, shared shape of agent.py
lines 135-159 (non-streaming) and 275-353 (streaming, minus the
presentation markup): for each call in order, parse its arguments
(outside any handler — a parse failure raises and aborts, keeping the
messages appended so far), dispatch, and append exactly one tool-role
message carrying the payload or the error content. -/
def execToolCalls (env : ToolEnv) (tcs : List ToolCallRec) (messages : List Msg) :
    List Msg × Option AgentErr :=
  match tcs with
  | [] => (messages, none)
  | tc :: rest =>
    match parseToolArgs env tc.arguments with
    | none => (messages, some (AgentErr.parseError tc.arguments))
    | some args =>
      execToolCalls env rest
        (messages ++ [Msg.tool tc.id tc.name (toolResultOf env tc args)])

/-- The tool calls of a batch that are actually dispatched: the longest
initial segment whose argument texts all parse. -/
def dispatchedCalls (env : ToolEnv) (tcs : List ToolCallRec) : List ToolCallRec :=
  tcs.takeWhile (fun tc => (parseToolArgs env tc.arguments).isSome)

/-- The one tool-role message recorded for a dispatched call. -/
def toolMsgOf (env : ToolEnv) (tc : ToolCallRec) : Msg :=
  Msg.tool tc.id tc.name (toolResultOf env tc ((parseToolArgs env tc.arguments).getD []))

/-- One reply of the model endpoint: a message `{content, tool_calls}`
or a request failure (network/protocol exception). -/
inductive ModelReply where
  | msg (content : Option String) (tool_calls : List ToolCallRec)
  | fail (e : String)

/-- The model endpoint, abstracted as a map from model-call index to
reply. -/
abbrev Oracle := Nat → ModelReply

inductive RunOutcome where
  | final (text : String)
  | capped
  | raised (e : AgentErr)
  deriving DecidableEq, Repr

structure RunResult where
  outcome : RunOutcome
  messages : List Msg
  modelCalls : Nat
  deriving DecidableEq, Repr

/-- `AgentConfig.MAX_ITERATIONS` (config.py). -/
def MAX_ITERATIONS : Nat := 10

/-- `max_iterations = max_iterations or AgentConfig.MAX_ITERATIONS`
(agent.py line 75 / 183): Python `or` replaces both `None` and `0` by
the config default. -/
def effectiveMaxIterations (passed : Option Nat) : Nat :=
  match passed with
  | none => MAX_ITERATIONS
  | some n => if n = 0 then MAX_ITERATIONS else n

/-- The fixed fallback returned when the iteration cap is reached
(agent.py line 179). -/
def fallbackText : String :=
  "I apologize, but I couldn\x27t complete your request within the iteration limit."

/-- The system prompt (agent.py lines 45-55). -/
def systemPrompt : String :=
  "You are a helpful AI assistant that can help users with various tasks.\nYou have access to several tools for getting information:\n- Weather information for any location\n- Book recommendations by topic\n- Random jokes for entertainment\n- Random dog pictures\n- Trivia questions\n\nWhen a user asks for help, determine which tools are needed and call them.\nAlways provide friendly, conversational responses that incorporate the tool results naturally.\nIf coordinates are mentioned, use them for weather. Parse requests carefully to identify all needed tools."

/-- `messages = [system, user]` (agent.py lines 78-87). -/
def initialMessages (user_message : String) : List Msg :=
  [Msg.system systemPrompt, Msg.user user_message]

/-- The `while iteration < max_iterations` loop of `_run_non_streaming`
(agent.py lines 92-179), with the remaining iteration budget as fuel
and `calls` the number of model calls made so far (also the oracle
index of the next call). Exhausted fuel is the capped exit returning
`fallbackText`; a model reply without tool calls is the final answer
`message.content or ""` returned WITHOUT appending it; a reply with
tool calls appends the assistant message and the per-call tool results
and iterates. -/
def loopNS (env : ToolEnv) (oracle : Oracle) :
    Nat → Nat → List Msg → RunResult
  | 0, calls, messages => ⟨RunOutcome.capped, messages, calls⟩
  | fuel + 1, calls, messages =>
    match oracle calls with
    | ModelReply.fail e => ⟨RunOutcome.raised (AgentErr.modelError e), messages, calls + 1⟩
    | ModelReply.msg content tcs =>
      if tcs.isEmpty then
        ⟨RunOutcome.final (content.getD ""), messages, calls + 1⟩
      else
        match execToolCalls env tcs (messages ++ [Msg.assistant content tcs]) with
        | (messages2, none) => loopNS env oracle fuel (calls + 1) messages2
        | (messages2, some e) => ⟨RunOutcome.raised e, messages2, calls + 1⟩

/-- `_run_non_streaming(user_message, max_iterations)`
(agent.py lines 73-179). -/
def runNS (env : ToolEnv) (oracle : Oracle) (user_message : String)
    (max_iterations : Option Nat) : RunResult :=
  loopNS env oracle (effectiveMaxIterations max_iterations) 0 (initialMessages user_message)

/-- The string returned by `_run_non_streaming` when it returns
normally. -/
def returnedText : RunOutcome → Option String
  | RunOutcome.final t => some t
  | RunOutcome.capped => some fallbackText
  | RunOutcome.raised _ => none

/-! ## Fragmentations of a complete logical response

The refinement property of the spec quantifies over the ways a known
complete `{content, tool_calls}` response can be split into a
`StreamFragment` sequence.  `IsFragmentationOf` renders the wording of the spec: content and per-call `name`/`arguments` may each arrive in
ordered pieces whose concatenation is the original value, the opaque
`id` arrives whole (possibly repeated, at least once), and fragments
for different call indices may interleave arbitrarily. -/

/-- All tool-call deltas of a fragment sequence, in arrival order. -/
def allDeltas : List StreamFragment → List ToolCallDelta
  | [] => []
  | f :: fs => f.tool_calls ++ allDeltas fs

/-- The deltas addressed to call index `i`, in arrival order. -/
def deltasAt (i : Nat) (fs : List StreamFragment) : List ToolCallDelta :=
  (allDeltas fs).filter (fun d => decide (d.index = some i))

/-- The content pieces of a fragment sequence (absent = ""). -/
def contentPieces (fs : List StreamFragment) : List String :=
  fs.map (fun f => f.content.getD "")

def namePieces (ds : List ToolCallDelta) : List String :=
  ds.filterMap (fun d => d.function.bind FunctionDelta.name)

def argsPieces (ds : List ToolCallDelta) : List String :=
  ds.filterMap (fun d => d.function.bind FunctionDelta.arguments)

def idPieces (ds : List ToolCallDelta) : List String :=
  ds.filterMap ToolCallDelta.id

/-- Does the delta address an index below `k`? -/
def indexWithin (k : Nat) (d : ToolCallDelta) : Bool :=
  match d.index with
  | some i => decide (i < k)
  | none => false

def defaultRec : ToolCallRec := ⟨none, "", ""⟩

/-- The per-index conditions for `fs` to fragment the call `c` at
index `i`: name and arguments pieces concatenate to the originals, and
the (non-empty) id is delivered whole at least once. -/
def IndexFrag (fs : List StreamFragment) (i : Nat) (c : ToolCallRec) : Prop :=
  String.join (namePieces (deltasAt i fs)) = c.name ∧
  String.join (argsPieces (deltasAt i fs)) = c.arguments ∧
  idPieces (deltasAt i fs) ≠ [] ∧
  ∀ v ∈ idPieces (deltasAt i fs), c.id = some v ∧ v ≠ ""

/-- `fs` is a fragmentation of the complete logical response
`{content, calls}`. -/
def IsFragmentationOf (fs : List StreamFragment) (content : String)
    (calls : List ToolCallRec) : Prop :=
  String.join (contentPieces fs) = content ∧
  (∀ d ∈ allDeltas fs, indexWithin calls.length d = true) ∧
  ∀ i < calls.length, IndexFrag fs i (calls.getD i defaultRec)

instance (fs : List StreamFragment) (i : Nat) (c : ToolCallRec) :
    Decidable (IndexFrag fs i c) := by
  unfold IndexFrag; exact inferInstance

instance (fs : List StreamFragment) (content : String) (calls : List ToolCallRec) :
    Decidable (IsFragmentationOf fs content calls) := by
  unfold IsFragmentationOf; exact inferInstance

/-- Access to a slot of `tool_calls_data`, with the never-written
default for indices beyond the list. -/
def getSlot : List Slot → Nat → Slot
  | [], _ => defaultSlot
  | s :: _, 0 => s
  | _ :: rest, i + 1 => getSlot rest i

/-- Does a JSON value carry an `error` field? -/
def hasErrorField : JVal → Bool
  | JVal.jstr _ => false
  | JVal.jobj fields => fields.any (fun p => decide (p.1 = "error"))

/-! ## Concrete instances used by witnesses and counterexamples -/

/-- An environment whose tools always succeed and whose `json.loads`
fails exactly on the text "oops". -/
def envC : ToolEnv :=
  ⟨fun _ _ => Except.ok (JVal.jstr "ok"), fun s => if s = "oops" then none else some []⟩

/-- An oracle that immediately answers without tool calls. -/
def oracleFinalC : Oracle := fun _ => ModelReply.msg (some "hi") []

/-- An oracle whose first reply requests one tool call with malformed
argument text and whose second reply is a final answer. -/
def oracleBadArgsC : Oracle := fun n =>
  if n = 0 then ModelReply.msg none [⟨some "id1", "random_joke", "oops"⟩]
  else ModelReply.msg (some "hi") []

/-- An oracle whose first reply requests a tool name that is not
registered and whose second reply is a final answer. -/
def oracleUnknownC : Oracle := fun n =>
  if n = 0 then ModelReply.msg none [⟨some "id1", "get_foo", ""⟩]
  else ModelReply.msg (some "done") []

/-- Two fragments that split the tool-call name "get_weather" into the
pieces "get_" and "weather" (a legal fragmentation per the spec). -/
def fsSplitName : List StreamFragment :=
  [⟨none, [⟨some 0, some "a", some ⟨some "get_", none⟩⟩]⟩,
   ⟨none, [⟨some 0, none, some ⟨some "weather", some "xy"⟩⟩]⟩]

/-- The complete logical response `fsSplitName` fragments. -/
def callsSplitName : List ToolCallRec := [⟨some "a", "get_weather", "xy"⟩]

/-- Is a message a tool-role message? -/
def isToolRole : Msg → Bool
  | Msg.tool _ _ _ => true
  | _ => false

/-! ## Helper lemmas about the loop -/

theorem loopNS_modelCalls_le (env : ToolEnv) (oracle : Oracle) :
    ∀ (fuel calls : Nat) (messages : List Msg),
      (loopNS env oracle fuel calls messages).modelCalls ≤ calls + fuel := by
  intro fuel
  induction fuel with
  | zero => intro calls messages; simp [loopNS]
  | succ n ih =>
    intro calls messages
    simp only [loopNS]
    cases h : oracle calls with
    | fail e => simp
    | msg content tcs =>
      cases htcs : tcs.isEmpty with
      | true => simp [htcs]
      | false =>
        simp only [htcs, Bool.false_eq_true, if_false]
        cases hexec : execToolCalls env tcs (messages ++ [Msg.assistant content tcs]) with
        | mk m2 err =>
          cases err with
          | none => exact le_trans (ih (calls + 1) m2) (by omega)
          | some e => simp

theorem loopNS_modelCalls_ge (env : ToolEnv) (oracle : Oracle) :
    ∀ (fuel calls : Nat) (messages : List Msg),
      calls ≤ (loopNS env oracle fuel calls messages).modelCalls := by
  intro fuel
  induction fuel with
  | zero => intro calls messages; simp [loopNS]
  | succ n ih =>
    intro calls messages
    simp only [loopNS]
    cases h : oracle calls with
    | fail e => simp
    | msg content tcs =>
      cases htcs : tcs.isEmpty with
      | true => simp [htcs]
      | false =>
        simp only [htcs, Bool.false_eq_true, if_false]
        cases hexec : execToolCalls env tcs (messages ++ [Msg.assistant content tcs]) with
        | mk m2 err =>
          cases err with
          | none => have := ih (calls + 1) m2; simpa using by omega
          | some e => simp

theorem loopNS_modelCalls_ge_one (env : ToolEnv) (oracle : Oracle)
    (fuel calls : Nat) (messages : List Msg) :
    calls + 1 ≤ (loopNS env oracle (fuel + 1) calls messages).modelCalls := by
  simp only [loopNS]
  cases h : oracle calls with
  | fail e => simp
  | msg content tcs =>
    cases htcs : tcs.isEmpty with
    | true => simp [htcs]
    | false =>
      simp only [htcs, Bool.false_eq_true, if_false]
      cases hexec : execToolCalls env tcs (messages ++ [Msg.assistant content tcs]) with
      | mk m2 err =>
        cases err with
        | none => have := loopNS_modelCalls_ge env oracle fuel (calls + 1) m2; simpa using by omega
        | some e => simp

theorem effectiveMaxIterations_pos (mi : Option Nat) : 1 ≤ effectiveMaxIterations mi := by
  cases mi with
  | none => decide
  | some n =>
    simp only [effectiveMaxIterations]
    split
    · decide
    · omega

/-! ## Claim theorems -/

/-- C10: for every user message and every configured iteration cap, a
run of the (non-streaming) agent loop terminates within
`maxIterations + 1` model calls — in fact within `maxIterations` model
calls, where `maxIterations` is the effective cap of the loop
`effectiveMaxIterations` — and produces a final answer, the capped
fallback, or a propagated error. -/
theorem run_terminates_within_bound (env : ToolEnv) (oracle : Oracle) (u : String)
    (mi : Option Nat) :
    (runNS env oracle u mi).modelCalls ≤ effectiveMaxIterations mi ∧
    (runNS env oracle u mi).modelCalls ≤ effectiveMaxIterations mi + 1 ∧
    ((∃ t, (runNS env oracle u mi).outcome = RunOutcome.final t) ∨
      (runNS env oracle u mi).outcome = RunOutcome.capped ∨
      (∃ e, (runNS env oracle u mi).outcome = RunOutcome.raised e)) := by
  have hle := loopNS_modelCalls_le env oracle (effectiveMaxIterations mi) 0 (initialMessages u)
  refine ⟨by simpa [runNS] using hle, by simp only [runNS]; omega, ?_⟩
  cases h : (runNS env oracle u mi).outcome with
  | final t => exact Or.inl ⟨t, rfl⟩
  | capped => exact Or.inr (Or.inl rfl)
  | raised e => exact Or.inr (Or.inr ⟨e, rfl⟩)

/-- C5 counterexample: running with `maxIterations = 0` against an
oracle whose first reply is a final answer makes one model call and
returns that answer — not the fixed fallback, and not without a model
call. -/
theorem run_zero_iterations_cex :
    (runNS envC oracleFinalC "hey" (some 0)).modelCalls = 1 ∧
    (runNS envC oracleFinalC "hey" (some 0)).outcome = RunOutcome.final "hi" ∧
    returnedText (runNS envC oracleFinalC "hey" (some 0)).outcome ≠ some fallbackText ∧
    (runNS envC oracleFinalC "hey" (some 0)).modelCalls ≠ 0 := by
  refine ⟨rfl, rfl, by decide, by decide⟩

/-- C5 amended: `max_iterations or AgentConfig.MAX_ITERATIONS` treats a
passed 0 like None, so `run` with `maxIterations = 0` behaves exactly
like `run` with the config default and always makes at least one model
call; the fallback is not returned immediately. -/
theorem run_zero_iterations_uses_default (env : ToolEnv) (oracle : Oracle) (u : String) :
    runNS env oracle u (some 0) = runNS env oracle u none ∧
    1 ≤ (runNS env oracle u (some 0)).modelCalls := by
  refine ⟨rfl, ?_⟩
  have := loopNS_modelCalls_ge_one env oracle 9 0 (initialMessages u)
  simpa [runNS, effectiveMaxIterations, MAX_ITERATIONS] using this

/-- C6 counterexample: an immediate final-answer run leaves the
conversation at its initial 2 messages (system, user); the final
assistant message is NOT appended, so the final-answer iteration grows
the conversation by 0, not 1. -/
theorem final_answer_no_append_cex :
    (runNS envC oracleFinalC "hey" none).messages = initialMessages "hey" ∧
    (runNS envC oracleFinalC "hey" none).messages.length = 2 ∧
    (runNS envC oracleFinalC "hey" none).outcome = RunOutcome.final "hi" ∧
    (runNS envC oracleFinalC "hey" none).messages.length ≠ 2 + 1 := by
  refine ⟨rfl, rfl, rfl, by decide⟩

/-- C6 amended: on an iteration where the message of the model carries no
tool calls, the loop returns `message.content or ""` WITHOUT appending
the message to the conversation: a final-answer iteration grows the
conversation by exactly 0 messages. -/
theorem final_answer_leaves_conversation (env : ToolEnv) (oracle : Oracle)
    (fuel calls : Nat) (messages : List Msg) (c : Option String)
    (h : oracle calls = ModelReply.msg c []) :
    loopNS env oracle (fuel + 1) calls messages =
      ⟨RunOutcome.final (c.getD ""), messages, calls + 1⟩ := by
  simp [loopNS, h]

/-- Witness for `final_answer_leaves_conversation` at a concrete
oracle. -/
theorem final_answer_leaves_conversation_witness :
    loopNS envC oracleFinalC 1 0 (initialMessages "hey") =
      ⟨RunOutcome.final "hi", initialMessages "hey", 1⟩ :=
  final_answer_leaves_conversation envC oracleFinalC 0 0 (initialMessages "hey")
    (some "hi") rfl

/-- C7 counterexample: an oracle whose first reply requests
`random_joke` with the malformed argument text "oops" (on which
`json.loads` raises). The run ABORTS with a parse error after one model
call, appending no tool-role message at all — the failure is not
captured as an `{error: ...}` tool result and the loop does not
continue (the second oracle reply, a final answer, is never
requested). -/
theorem malformed_args_cex :
    runNS envC oracleBadArgsC "hey" none =
      ⟨RunOutcome.raised (AgentErr.parseError "oops"),
        initialMessages "hey" ++
          [Msg.assistant none [⟨some "id1", "random_joke", "oops"⟩]], 1⟩ ∧
    (runNS envC oracleBadArgsC "hey" none).messages.all
      (fun m => !isToolRole m) = true := by
  refine ⟨rfl, by decide⟩

/-- C7 amended: malformed (non-empty, unparseable) argument text in a
tool call raises out of the loop: the run aborts with a propagated
argument-parse error instead of capturing it as an error tool result
and continuing. -/
theorem malformed_args_abort (env : ToolEnv) (oracle : Oracle) (u : String)
    (mi : Option Nat) (c : Option String) (tc : ToolCallRec) (rest : List ToolCallRec)
    (h0 : oracle 0 = ModelReply.msg c (tc :: rest))
    (hne : tc.arguments ≠ "") (hp : env.parse tc.arguments = none) :
    (runNS env oracle u mi).outcome =
      RunOutcome.raised (AgentErr.parseError tc.arguments) := by
  obtain ⟨k, hk⟩ : ∃ k, effectiveMaxIterations mi = k + 1 :=
    ⟨effectiveMaxIterations mi - 1, by have := effectiveMaxIterations_pos mi; omega⟩
  rw [runNS, hk]
  simp [loopNS, h0, execToolCalls, parseToolArgs, hne, hp]

/-- Witness for `malformed_args_abort` at a concrete oracle and
environment. -/
theorem malformed_args_abort_witness :
    (runNS envC oracleBadArgsC "hey" none).outcome =
      RunOutcome.raised (AgentErr.parseError "oops") :=
  malformed_args_abort envC oracleBadArgsC "hey" none none
    ⟨some "id1", "random_joke", "oops"⟩ [] rfl (by decide) rfl

/-- C8: dispatching a tool name that is not registered: `execute_tool`
raises `ValueError` (the `.error` result), the loop-level handler
captures it and records exactly one tool-role message whose content
carries an `error` field, and execution continues with the remaining
tool calls — an unknown tool name is never fatal to the run. -/
theorem unknown_tool_captured (env : ToolEnv) (tc : ToolCallRec)
    (rest : List ToolCallRec) (messages : List Msg) (args : Args)
    (hname : tc.name ∉ toolMapNames)
    (hargs : parseToolArgs env tc.arguments = some args) :
    execute_tool env tc.name args = Except.error ("Unknown tool: " ++ tc.name) ∧
    execToolCalls env (tc :: rest) messages =
      execToolCalls env rest
        (messages ++
          [Msg.tool tc.id tc.name (JVal.jobj [("error", "Unknown tool: " ++ tc.name)])]) ∧
    hasErrorField (JVal.jobj [("error", "Unknown tool: " ++ tc.name)]) = true := by
  have h1 : execute_tool env tc.name args = Except.error ("Unknown tool: " ++ tc.name) := by
    simp [execute_tool, hname]
  refine ⟨h1, ?_, by simp [hasErrorField]⟩
  simp [execToolCalls, hargs, toolResultOf, h1]

/-- Witness for `unknown_tool_captured`: the unregistered name
"get_foo" with empty argument text. -/
theorem unknown_tool_captured_witness :
    "get_foo" ∉ toolMapNames ∧
    parseToolArgs envC "" = some [] ∧
    (execute_tool envC "get_foo" [] = Except.error ("Unknown tool: " ++ "get_foo") ∧
      execToolCalls envC [⟨some "id1", "get_foo", ""⟩] [] =
        execToolCalls envC []
          [Msg.tool (some "id1") "get_foo"
            (JVal.jobj [("error", "Unknown tool: " ++ "get_foo")])] ∧
      hasErrorField (JVal.jobj [("error", "Unknown tool: " ++ "get_foo")]) = true) :=
  ⟨by decide, rfl,
    unknown_tool_captured envC ⟨some "id1", "get_foo", ""⟩ [] [] [] (by decide) rfl⟩

/-- C9: the tool-execution loop records exactly one tool-role message,
in order, for every dispatched tool call (the message carries the
payload or the error content), appended to the conversation it hands
back for the next model call; and it reports no exception exactly when
every call of the batch was dispatched. -/
theorem dispatched_calls_recorded (env : ToolEnv) (tcs : List ToolCallRec)
    (messages : List Msg) :
    (execToolCalls env tcs messages).1 =
      messages ++ (dispatchedCalls env tcs).map (toolMsgOf env) ∧
    ((execToolCalls env tcs messages).2 = none ↔ dispatchedCalls env tcs = tcs) := by
  induction tcs generalizing messages with
  | nil => simp [execToolCalls, dispatchedCalls]
  | cons tc rest ih =>
    cases hp : parseToolArgs env tc.arguments with
    | none =>
      constructor
      · simp [execToolCalls, hp, dispatchedCalls, List.takeWhile_cons]
      · simp [execToolCalls, hp, dispatchedCalls, List.takeWhile_cons]
    | some args =>
      have htm : Msg.tool tc.id tc.name (toolResultOf env tc args) = toolMsgOf env tc := by
        simp [toolMsgOf, hp]
      constructor
      · rw [show execToolCalls env (tc :: rest) messages =
            execToolCalls env rest
              (messages ++ [Msg.tool tc.id tc.name (toolResultOf env tc args)]) by
            simp [execToolCalls, hp]]
        rw [(ih _).1, htm]
        simp [dispatchedCalls, List.takeWhile_cons, hp]
      · rw [show execToolCalls env (tc :: rest) messages =
            execToolCalls env rest
              (messages ++ [Msg.tool tc.id tc.name (toolResultOf env tc args)]) by
            simp [execToolCalls, hp]]
        rw [(ih _).2]
        simp [dispatchedCalls, List.takeWhile_cons, hp]

/-! ## Helper lemmas about slot access in the accumulator -/

theorem getSlot_eq_getD (slots : List Slot) (i : Nat) :
    getSlot slots i = slots.getD i defaultSlot := by
  induction slots generalizing i with
  | nil => cases i <;> rfl
  | cons s rest ih => cases i with
    | zero => rfl
    | succ j => simpa [getSlot] using ih j

theorem getSlot_eq_getElem (slots : List Slot) (i : Nat) (h : i < slots.length) :
    getSlot slots i = slots[i] := by
  rw [getSlot_eq_getD]
  exact List.getD_eq_getElem slots defaultSlot h

theorem padTo_length_gt (slots : List Slot) (i : Nat) : i < (padTo slots i).length := by
  simp [padTo]
  omega

theorem getSlot_set_self (slots : List Slot) (i : Nat) (a : Slot) (h : i < slots.length) :
    getSlot (slots.set i a) i = a := by
  induction slots generalizing i with
  | nil => simp at h
  | cons s rest ih =>
    cases i with
    | zero => rfl
    | succ j => simpa [List.set, getSlot] using ih j (by simpa using h)

theorem getSlot_set_ne (slots : List Slot) (i j : Nat) (a : Slot) (h : i ≠ j) :
    getSlot (slots.set j a) i = getSlot slots i := by
  induction slots generalizing i j with
  | nil => simp [List.set]
  | cons s rest ih =>
    cases j with
    | zero => cases i with
      | zero => exact absurd rfl h
      | succ k => rfl
    | succ j2 => cases i with
      | zero => rfl
      | succ k => simpa [List.set, getSlot] using ih k j2 (by omega)

theorem getSlot_replicate_default (k i : Nat) :
    getSlot (List.replicate k defaultSlot) i = defaultSlot := by
  induction k generalizing i with
  | zero => cases i <;> rfl
  | succ m ih => cases i with
    | zero => rfl
    | succ j => simpa [List.replicate, getSlot] using ih j

theorem getSlot_append_replicate (slots : List Slot) (k i : Nat) :
    getSlot (slots ++ List.replicate k defaultSlot) i = getSlot slots i := by
  induction slots generalizing i with
  | nil => simpa [getSlot] using getSlot_replicate_default k i
  | cons s rest ih =>
    cases i with
    | zero => rfl
    | succ j => simpa [getSlot] using ih j

theorem getSlot_padTo (slots : List Slot) (j i : Nat) :
    getSlot (padTo slots j) i = getSlot slots i :=
  getSlot_append_replicate slots _ i

theorem getSlot_processToolCallDelta_self (slots : List Slot) (d : ToolCallDelta)
    (i : Nat) (h : d.index = some i) :
    getSlot (processToolCallDelta slots d) i = applySlotDelta (getSlot slots i) d := by
  simp only [processToolCallDelta, h]
  rw [getSlot_set_self _ _ _ (padTo_length_gt slots i), ← getSlot_eq_getD, getSlot_padTo]

theorem getSlot_processToolCallDelta_other (slots : List Slot) (d : ToolCallDelta)
    (i : Nat) (h : d.index ≠ some i) :
    getSlot (processToolCallDelta slots d) i = getSlot slots i := by
  cases hidx : d.index with
  | none => simp [processToolCallDelta, hidx]
  | some j =>
    have hne : i ≠ j := by
      intro hij
      exact h (hij ▸ hidx)
    simp only [processToolCallDelta, hidx]
    rw [getSlot_set_ne _ _ _ _ hne, getSlot_padTo]

/-- Projections of one slot update: the id after a delta. -/
theorem applySlotDelta_id (s : Slot) (d : ToolCallDelta) :
    (applySlotDelta s d).id =
      (match d.id with
        | some v => if v = "" then s.id else some v
        | none => s.id) := by
  have hfd : ∀ (t : Slot) (fd : Option FunctionDelta), (applyFunctionDelta t fd).id = t.id := by
    intro t fd
    cases fd with
    | none => rfl
    | some f =>
      obtain ⟨n, a⟩ := f
      cases n <;> cases a <;> simp [applyFunctionDelta] <;> split_ifs <;> rfl
  cases hid : d.id with
  | none => simp [applySlotDelta, applyIdDelta, hid, hfd]
  | some v =>
    by_cases hv : v = "" <;> simp [applySlotDelta, applyIdDelta, hid, hv, hfd]

/-- Projections of one slot update: the name after a delta. -/
theorem applySlotDelta_name (s : Slot) (d : ToolCallDelta) :
    (applySlotDelta s d).name =
      (match d.function.bind FunctionDelta.name with
        | some n => if n = "" then s.name else n
        | none => s.name) := by
  have hidn : ∀ (idd : Option String), (applyIdDelta s idd).name = s.name := by
    intro idd
    cases idd with
    | none => rfl
    | some v => by_cases hv : v = "" <;> simp [applyIdDelta, hv]
  cases hfd : d.function with
  | none => simp [applySlotDelta, hfd, applyFunctionDelta, hidn]
  | some f =>
    obtain ⟨n, a⟩ := f
    cases n <;> cases a <;>
      simp [applySlotDelta, hfd, applyFunctionDelta, hidn] <;>
      split_ifs <;> simp [hidn]

/-- Projections of one slot update: the arguments after a delta. -/
theorem applySlotDelta_arguments (s : Slot) (d : ToolCallDelta) :
    (applySlotDelta s d).arguments =
      s.arguments ++ (d.function.bind FunctionDelta.arguments).getD "" := by
  have hida : ∀ (idd : Option String), (applyIdDelta s idd).arguments = s.arguments := by
    intro idd
    cases idd with
    | none => rfl
    | some v => by_cases hv : v = "" <;> simp [applyIdDelta, hv]
  cases hfd : d.function with
  | none => simp [applySlotDelta, hfd, applyFunctionDelta, hida, String.append_empty]
  | some f =>
    obtain ⟨n, a⟩ := f
    cases n <;> cases a <;>
      simp [applySlotDelta, hfd, applyFunctionDelta, hida, String.append_empty] <;>
      split_ifs <;> simp [hida, String.append_empty] <;> simp_all [String.append_empty]

/-- C4 counterexample: two fragments deliver the non-null ids "a" then
"b" for index 0; the accumulated slot ends with id "b" — the LATER id
delta overwrites the earlier one instead of being ignored. -/
theorem id_first_wins_cex :
    (accumulateStream [⟨none, [⟨some 0, some "a", none⟩]⟩,
        ⟨none, [⟨some 0, some "b", none⟩]⟩]).tool_calls_data =
      [⟨some "b", "", ""⟩] ∧
    (some "b" : Option String) ≠ some "a" := by
  refine ⟨rfl, by decide⟩

/-- C4 amended: every non-empty id delta for an index overwrites that
id of the slot, so the LAST non-empty id delta wins (the identifier is not
assigned once). -/
theorem id_delta_overwrites (slots : List Slot) (i : Nat) (v : String)
    (fd : Option FunctionDelta) (hv : v ≠ "") :
    (getSlot (processToolCallDelta slots ⟨some i, some v, fd⟩) i).id = some v := by
  rw [getSlot_processToolCallDelta_self _ _ _ rfl, applySlotDelta_id]
  simp [hv]

/-- Witness for `id_delta_overwrites`: overwriting the already-set id
"a" with "b". -/
theorem id_delta_overwrites_witness :
    ("b" : String) ≠ "" ∧
    (getSlot (processToolCallDelta [⟨some "a", "", ""⟩] ⟨some 0, some "b", none⟩) 0).id =
      some "b" :=
  ⟨by decide, id_delta_overwrites [⟨some "a", "", ""⟩] 0 "b" none (by decide)⟩

/-- C2 counterexample: the name "get_weather" arrives split into the
deltas "get_" and "weather" for index 0; the accumulated slot name is
"weather", not the concatenation "get_weather" — name deltas are NOT
appended. -/
theorem name_append_cex :
    (accumulateStream [⟨none, [⟨some 0, some "a", some ⟨some "get_", none⟩⟩]⟩,
        ⟨none, [⟨some 0, none, some ⟨some "weather", none⟩⟩]⟩]).tool_calls_data =
      [⟨some "a", "weather", ""⟩] ∧
    ("weather" : String) ≠ "get_" ++ "weather" := by
  refine ⟨rfl, by decide⟩

/-- C2 amended: a non-empty name delta OVERWRITES the accumulated
slot name (so a name split across fragments ends as its last
non-empty piece), unlike arguments deltas, which are appended. -/
theorem name_delta_overwrites (slots : List Slot) (i : Nat) (v : String)
    (idd : Option String) (hv : v ≠ "") :
    (getSlot (processToolCallDelta slots ⟨some i, idd, some ⟨some v, none⟩⟩) i).name = v := by
  rw [getSlot_processToolCallDelta_self _ _ _ rfl, applySlotDelta_name]
  simp [hv]

/-- Witness for `name_delta_overwrites`: overwriting the already
accumulated name piece "get_" with "weather". -/
theorem name_delta_overwrites_witness :
    ("weather" : String) ≠ "" ∧
    (getSlot (processToolCallDelta [⟨some "a", "get_", ""⟩]
        ⟨some 0, none, some ⟨some "weather", none⟩⟩) 0).name = "weather" :=
  ⟨by decide,
    name_delta_overwrites [⟨some "a", "get_", ""⟩] 0 "weather" none (by decide)⟩

/-- C3 counterexample: at stream end, a slot whose fragments never
carried an id is NOT discarded: alongside a slot with an id it is
finalized (and would be dispatched) as well. -/
theorem finalize_keeps_idless_cex :
    finalizedToolCalls [⟨some "a", "random_joke", ""⟩, ⟨none, "x", ""⟩] =
      [⟨some "a", "random_joke", ""⟩, ⟨none, "x", ""⟩] ∧
    ¬(∀ tc ∈ finalizedToolCalls [⟨some "a", "random_joke", ""⟩, ⟨none, "x", ""⟩],
        tc.id ≠ none) := by
  refine ⟨by decide, by decide⟩

/-- C3 amended: finalization is all-or-nothing — if at least one
accumulated slot has a non-null (non-empty) id, ALL slots, including
those without an id, are finalized and dispatched in index order; if no
slot has an id, no tool call is finalized. -/
theorem finalize_all_or_nothing (slots : List Slot) :
    finalizedToolCalls slots =
      (if slots.any (fun s => strTruthy s.id) then slots.map slotToRec else []) := by
  cases slots <;> simp [finalizedToolCalls]

/-! ## Helper lemmas towards the reconstruction equivalence -/

theorem join_cons (a : String) (l : List String) :
    String.join (a :: l) = a ++ String.join l := by
  apply String.ext
  simp

theorem processFragment_content (st : StreamState) (f : StreamFragment) :
    (processFragment st f).accumulated_content =
      st.accumulated_content ++ f.content.getD "" := by
  cases hc : f.content with
  | none => simp [processFragment, hc, String.append_empty]
  | some c =>
    by_cases h : c = "" <;> simp [processFragment, hc, h, String.append_empty]

theorem accumulate_content (fs : List StreamFragment) :
    ∀ st : StreamState,
      (List.foldl processFragment st fs).accumulated_content =
        st.accumulated_content ++ String.join (contentPieces fs) := by
  induction fs with
  | nil => intro st; simp [contentPieces, String.join, String.append_empty]
  | cons f fs ih =>
    intro st
    simp only [List.foldl_cons]
    rw [ih, processFragment_content]
    have hcp : contentPieces (f :: fs) = f.content.getD "" :: contentPieces fs := rfl
    rw [hcp, join_cons, String.append_assoc]

theorem accumulate_slots (fs : List StreamFragment) :
    ∀ st : StreamState,
      (List.foldl processFragment st fs).tool_calls_data =
        (allDeltas fs).foldl processToolCallDelta st.tool_calls_data := by
  induction fs with
  | nil => intro st; rfl
  | cons f fs ih =>
    intro st
    simp only [List.foldl_cons, allDeltas, List.foldl_append]
    rw [ih]
    rfl

theorem getSlot_foldl_deltas (ds : List ToolCallDelta) :
    ∀ (slots : List Slot) (i : Nat),
      getSlot (ds.foldl processToolCallDelta slots) i =
        (ds.filter (fun d => decide (d.index = some i))).foldl applySlotDelta
          (getSlot slots i) := by
  induction ds with
  | nil => intro slots i; rfl
  | cons d ds ih =>
    intro slots i
    by_cases h : d.index = some i
    · rw [List.foldl_cons, ih, getSlot_processToolCallDelta_self _ _ _ h]
      simp [List.filter_cons, h]
    · rw [List.foldl_cons, ih, getSlot_processToolCallDelta_other _ _ _ h]
      simp [List.filter_cons, h]

theorem foldl_applySlotDelta_arguments (ds : List ToolCallDelta) :
    ∀ s : Slot, (ds.foldl applySlotDelta s).arguments =
      s.arguments ++ String.join (argsPieces ds) := by
  induction ds with
  | nil => intro s; simp [argsPieces, String.join, String.append_empty]
  | cons d ds ih =>
    intro s
    rw [List.foldl_cons, ih, applySlotDelta_arguments]
    cases hda : d.function.bind FunctionDelta.arguments with
    | none => simp [argsPieces, List.filterMap_cons, hda, String.append_empty]
    | some a =>
      simp only [argsPieces, List.filterMap_cons, hda, Option.getD_some]
      rw [join_cons, String.append_assoc]

theorem foldl_applySlotDelta_name (ds : List ToolCallDelta) :
    ∀ s : Slot, (ds.foldl applySlotDelta s).name =
      (namePieces ds).foldl (fun c n => if n = "" then c else n) s.name := by
  induction ds with
  | nil => intro s; rfl
  | cons d ds ih =>
    intro s
    rw [List.foldl_cons, ih, applySlotDelta_name]
    cases hdn : d.function.bind FunctionDelta.name with
    | none => simp [namePieces, List.filterMap_cons, hdn]
    | some n => simp [namePieces, List.filterMap_cons, hdn]

theorem foldl_applySlotDelta_id (ds : List ToolCallDelta) :
    ∀ s : Slot, (ds.foldl applySlotDelta s).id =
      (idPieces ds).foldl (fun c v => if v = "" then c else some v) s.id := by
  induction ds with
  | nil => intro s; rfl
  | cons d ds ih =>
    intro s
    rw [List.foldl_cons, ih, applySlotDelta_id]
    cases hdi : d.id with
    | none => simp [idPieces, List.filterMap_cons, hdi]
    | some v => simp [idPieces, List.filterMap_cons, hdi]

theorem foldl_keep_last_eq (v : String) :
    ∀ ps : List String, (∀ p ∈ ps, p = "" ∨ p = v) →
      ps.foldl (fun c n => if n = "" then c else n) v = v := by
  intro ps
  induction ps with
  | nil => intro _; rfl
  | cons p ps ih =>
    intro hall
    have h1 : (if p = "" then v else p) = v := by
      rcases hall p (by simp) with hp | hp
      · simp [hp]
      · by_cases he : p = "" <;> simp [he, hp]
    rw [List.foldl_cons, h1]
    exact ih (fun q hq => hall q (by simp [hq]))

theorem foldl_last_piece (v : String) (hv : v ≠ "") :
    ∀ ps : List String, (∀ p ∈ ps, p = "" ∨ p = v) → String.join ps = v →
      ps.foldl (fun c n => if n = "" then c else n) "" = v := by
  intro ps
  induction ps with
  | nil => intro _ hj; exact absurd hj.symm hv
  | cons p ps ih =>
    intro hall hj
    rcases hall p (by simp) with hp | hp
    · subst hp
      rw [List.foldl_cons, if_pos rfl]
      apply ih (fun q hq => hall q (by simp [hq]))
      rw [join_cons, String.empty_append] at hj
      exact hj
    · subst hp
      rw [List.foldl_cons, if_neg hv]
      exact foldl_keep_last_eq p ps (fun q hq => hall q (by simp [hq]))

theorem foldl_all_empty_name :
    ∀ ps : List String, (∀ p ∈ ps, p = "") →
      ps.foldl (fun c n => if n = "" then c else n) "" = "" := by
  intro ps
  induction ps with
  | nil => intro _; rfl
  | cons p ps ih =>
    intro hall
    rw [List.foldl_cons, hall p (by simp), if_pos rfl]
    exact ih (fun q hq => hall q (by simp [hq]))

theorem foldl_id_keep (v : String) (hv : v ≠ "") :
    ∀ ps : List String, (∀ p ∈ ps, p = v) →
      ps.foldl (fun c w => if w = "" then c else some w) (some v) = some v := by
  intro ps
  induction ps with
  | nil => intro _; rfl
  | cons p ps ih =>
    intro hall
    have hp : p = v := hall p (by simp)
    subst hp
    rw [List.foldl_cons, if_neg hv]
    exact ih (fun q hq => hall q (by simp [hq]))

theorem foldl_id_some (v : String) (hv : v ≠ "") :
    ∀ (ps : List String) (o : Option String), ps ≠ [] → (∀ p ∈ ps, p = v) →
      ps.foldl (fun c w => if w = "" then c else some w) o = some v := by
  intro ps o hne hall
  cases ps with
  | nil => exact absurd rfl hne
  | cons p ps =>
    have hp : p = v := hall p (by simp)
    subst hp
    rw [List.foldl_cons, if_neg hv]
    exact foldl_id_keep p hv ps (fun q hq => hall q (by simp [hq]))

theorem length_processToolCallDelta_some (slots : List Slot) (d : ToolCallDelta)
    (j : Nat) (h : d.index = some j) :
    (processToolCallDelta slots d).length = max slots.length (j + 1) := by
  simp [processToolCallDelta, h, padTo]
  omega

theorem length_processToolCallDelta_none (slots : List Slot) (d : ToolCallDelta)
    (h : d.index = none) :
    (processToolCallDelta slots d).length = slots.length := by
  simp [processToolCallDelta, h]

theorem foldl_deltas_length_le (k : Nat) :
    ∀ (ds : List ToolCallDelta) (slots : List Slot),
      (∀ d ∈ ds, indexWithin k d = true) → slots.length ≤ k →
      (ds.foldl processToolCallDelta slots).length ≤ k := by
  intro ds
  induction ds with
  | nil => intro slots _ h; simpa using h
  | cons d ds ih =>
    intro slots hall hle
    rw [List.foldl_cons]
    apply ih _ (fun e he => hall e (by simp [he]))
    cases hidx : d.index with
    | none => rw [length_processToolCallDelta_none _ _ hidx]; exact hle
    | some j =>
      have hj := hall d (by simp)
      simp [indexWithin, hidx] at hj
      rw [length_processToolCallDelta_some _ _ _ hidx]
      omega

theorem foldl_deltas_length_mono :
    ∀ (ds : List ToolCallDelta) (slots : List Slot),
      slots.length ≤ (ds.foldl processToolCallDelta slots).length := by
  intro ds
  induction ds with
  | nil => intro slots; simp
  | cons d ds ih =>
    intro slots
    rw [List.foldl_cons]
    refine le_trans ?_ (ih (processToolCallDelta slots d))
    cases hidx : d.index with
    | none => rw [length_processToolCallDelta_none _ _ hidx]
    | some j => rw [length_processToolCallDelta_some _ _ _ hidx]; omega

theorem foldl_deltas_length_ge (j : Nat) :
    ∀ (ds : List ToolCallDelta) (slots : List Slot) (d : ToolCallDelta),
      d ∈ ds → d.index = some j →
      j + 1 ≤ (ds.foldl processToolCallDelta slots).length := by
  intro ds
  induction ds with
  | nil => intro slots d h _; simp at h
  | cons e ds ih =>
    intro slots d hmem hidx
    rw [List.foldl_cons]
    rcases List.mem_cons.mp hmem with he | hd
    · subst he
      refine le_trans ?_ (foldl_deltas_length_mono ds _)
      rw [length_processToolCallDelta_some _ _ _ hidx]
      omega
    · exact ih _ _ hd hidx

/-- C1 counterexample: `fsSplitName` is a legal fragmentation of the
complete response `("", callsSplitName)` — the name "get_weather"
arrives in the two pieces "get_" and "weather" — yet the streaming
accumulator reconstructs the name as "weather": the reconstruction is
NOT byte-for-byte equivalent to the non-streaming result for every
fragmentation. -/
theorem stream_reconstruction_cex :
    IsFragmentationOf fsSplitName "" callsSplitName ∧
    streamResult fsSplitName ≠ ("", callsSplitName) := by
  constructor
  · decide
  · decide

/-- C1 amended: the reconstruction equivalence holds for every
fragmentation in which each tool-call name arrives whole (every
non-empty name delta carries the full name rather than a proper piece);
content and argument deltas may still be split arbitrarily and indices
may interleave arbitrarily. -/
theorem stream_reconstruction_equivalence (fs : List StreamFragment) (content : String)
    (calls : List ToolCallRec)
    (hfrag : IsFragmentationOf fs content calls)
    (hwhole : ∀ i < calls.length, ∀ n ∈ namePieces (deltasAt i fs),
      n = "" ∨ n = (calls.getD i defaultRec).name) :
    streamResult fs = (content, calls) := by
  obtain ⟨hcontent, hidx, hfragAt⟩ := hfrag
  have hcont : (accumulateStream fs).accumulated_content = content := by
    rw [accumulateStream, accumulate_content]
    show "" ++ String.join (contentPieces fs) = content
    rw [String.empty_append]
    exact hcontent
  have hslots : (accumulateStream fs).tool_calls_data =
      (allDeltas fs).foldl processToolCallDelta [] := accumulate_slots fs _
  by_cases hk : calls.length = 0
  · have hnil : calls = [] := List.length_eq_zero.mp hk
    have hnod : allDeltas fs = [] := by
      cases hA : allDeltas fs with
      | nil => rfl
      | cons d ds =>
        have h1 := hidx d (by rw [hA]; exact List.mem_cons_self d ds)
        rw [hk] at h1
        cases hdi : d.index with
        | none => simp [indexWithin, hdi] at h1
        | some i => simp [indexWithin, hdi] at h1
    have hsl : (accumulateStream fs).tool_calls_data = [] := by
      rw [hslots, hnod]
      rfl
    show ((accumulateStream fs).accumulated_content,
        finalizedToolCalls (accumulateStream fs).tool_calls_data) = (content, calls)
    rw [hcont, hsl, hnil]
    rfl
  · have hk1 : 1 ≤ calls.length := by omega
    have hslot : ∀ i, i < calls.length →
        getSlot ((allDeltas fs).foldl processToolCallDelta []) i =
          ⟨(calls.getD i defaultRec).id, (calls.getD i defaultRec).name,
            (calls.getD i defaultRec).arguments⟩ := by
      intro i hik
      obtain ⟨hn, ha, hidne, hid⟩ := hfragAt i hik
      have hds : getSlot ((allDeltas fs).foldl processToolCallDelta []) i =
          (deltasAt i fs).foldl applySlotDelta defaultSlot := by
        rw [getSlot_foldl_deltas]
        rfl
      obtain ⟨v0, hv0mem⟩ : ∃ v, v ∈ idPieces (deltasAt i fs) := by
        cases hip : idPieces (deltasAt i fs) with
        | nil => exact absurd hip hidne
        | cons a l => exact ⟨a, List.mem_cons_self a l⟩
      obtain ⟨hcid, hv0ne⟩ := hid v0 hv0mem
      have hallid : ∀ p ∈ idPieces (deltasAt i fs), p = v0 := by
        intro p hp
        obtain ⟨hcp, _⟩ := hid p hp
        rw [hcid] at hcp
        exact (Option.some.inj hcp).symm
      have hidv : (getSlot ((allDeltas fs).foldl processToolCallDelta []) i).id =
          some v0 := by
        rw [hds, foldl_applySlotDelta_id]
        exact foldl_id_some v0 hv0ne _ _ hidne hallid
      have hnamev : (getSlot ((allDeltas fs).foldl processToolCallDelta []) i).name =
          (calls.getD i defaultRec).name := by
        rw [hds, foldl_applySlotDelta_name]
        by_cases hcn : (calls.getD i defaultRec).name = ""
        · rw [hcn]
          apply foldl_all_empty_name
          intro p hp
          rcases hwhole i hik p hp with h | h
          · exact h
          · rw [h, hcn]
        · exact foldl_last_piece _ hcn _ (hwhole i hik) hn
      have hargv : (getSlot ((allDeltas fs).foldl processToolCallDelta []) i).arguments =
          (calls.getD i defaultRec).arguments := by
        rw [hds, foldl_applySlotDelta_arguments]
        show "" ++ String.join (argsPieces (deltasAt i fs)) = _
        rw [String.empty_append]
        exact ha
      have heta : getSlot ((allDeltas fs).foldl processToolCallDelta []) i =
          ⟨(getSlot ((allDeltas fs).foldl processToolCallDelta []) i).id,
            (getSlot ((allDeltas fs).foldl processToolCallDelta []) i).name,
            (getSlot ((allDeltas fs).foldl processToolCallDelta []) i).arguments⟩ := rfl
      rw [heta, hidv, hnamev, hargv, ← hcid]
    have hlen : ((allDeltas fs).foldl processToolCallDelta []).length = calls.length := by
      have hle : ((allDeltas fs).foldl processToolCallDelta []).length ≤ calls.length :=
        foldl_deltas_length_le calls.length _ [] hidx (by simp)
      have hge : calls.length ≤ ((allDeltas fs).foldl processToolCallDelta []).length := by
        obtain ⟨hn, ha, hidne, hid⟩ := hfragAt (calls.length - 1) (by omega)
        obtain ⟨d, hdmem⟩ : ∃ d, d ∈ deltasAt (calls.length - 1) fs := by
          cases hDs : deltasAt (calls.length - 1) fs with
          | nil => rw [hDs] at hidne; simp [idPieces] at hidne
          | cons a l => exact ⟨a, List.mem_cons_self a l⟩
        have hdall := List.mem_filter.mp hdmem
        have hdi : d.index = some (calls.length - 1) := of_decide_eq_true hdall.2
        have := foldl_deltas_length_ge (calls.length - 1) (allDeltas fs) [] d hdall.1 hdi
        omega
      omega
    have hmap : ((allDeltas fs).foldl processToolCallDelta []).map slotToRec = calls := by
      apply List.ext_getElem
      · simp [hlen]
      · intro i h1 h2
        have hik : i < calls.length := h2
        have hilen : i < ((allDeltas fs).foldl processToolCallDelta []).length := by
          rw [hlen]; exact hik
        rw [List.getElem_map, ← getSlot_eq_getElem _ _ hilen, hslot i hik,
          List.getD_eq_getElem calls defaultRec h2]
        rfl
    have hne2 : ((allDeltas fs).foldl processToolCallDelta []) ≠ [] := by
      intro h
      rw [h] at hlen
      simp at hlen
      omega
    have hany : ((allDeltas fs).foldl processToolCallDelta []).any
        (fun s => strTruthy s.id) = true := by
      rw [List.any_eq_true]
      have h0 : (0 : Nat) < ((allDeltas fs).foldl processToolCallDelta []).length := by
        omega
      refine ⟨((allDeltas fs).foldl processToolCallDelta [])[0], List.getElem_mem h0, ?_⟩
      rw [← getSlot_eq_getElem _ _ h0, hslot 0 (by omega)]
      obtain ⟨hn0, ha0, hidne0, hid0⟩ := hfragAt 0 (by omega)
      obtain ⟨v0, hv0mem⟩ : ∃ v, v ∈ idPieces (deltasAt 0 fs) := by
        cases hip : idPieces (deltasAt 0 fs) with
        | nil => exact absurd hip hidne0
        | cons a l => exact ⟨a, List.mem_cons_self a l⟩
      obtain ⟨hcid0, hvne0⟩ := hid0 v0 hv0mem
      show strTruthy (calls.getD 0 defaultRec).id = true
      rw [hcid0]
      simp [strTruthy, hvne0]
    show ((accumulateStream fs).accumulated_content,
        finalizedToolCalls (accumulateStream fs).tool_calls_data) = (content, calls)
    rw [hcont, hslots, finalizedToolCalls]
    have hcond : (!((allDeltas fs).foldl processToolCallDelta []).isEmpty &&
        ((allDeltas fs).foldl processToolCallDelta []).any (fun s => strTruthy s.id)) =
          true := by
      rw [hany]
      simp [List.isEmpty_iff, hne2]
    rw [if_pos hcond, hmap]

/-- Witness for `stream_reconstruction_equivalence`: a fragmentation
splitting content into "he"/"y" and arguments into "x"/"y" while the
name "get_weather" arrives whole. -/
theorem stream_reconstruction_equivalence_witness :
    IsFragmentationOf
        [⟨some "he", [⟨some 0, some "a", some ⟨some "get_weather", some "x"⟩⟩]⟩,
          ⟨some "y", [⟨some 0, none, some ⟨none, some "y"⟩⟩]⟩]
        "hey" [⟨some "a", "get_weather", "xy"⟩] ∧
    (∀ i < ([⟨some "a", "get_weather", "xy"⟩] : List ToolCallRec).length,
      ∀ n ∈ namePieces (deltasAt i
        [⟨some "he", [⟨some 0, some "a", some ⟨some "get_weather", some "x"⟩⟩]⟩,
          ⟨some "y", [⟨some 0, none, some ⟨none, some "y"⟩⟩]⟩]),
      n = "" ∨ n = (([⟨some "a", "get_weather", "xy"⟩] : List ToolCallRec).getD i
        defaultRec).name) ∧
    streamResult
        [⟨some "he", [⟨some 0, some "a", some ⟨some "get_weather", some "x"⟩⟩]⟩,
          ⟨some "y", [⟨some 0, none, some ⟨none, some "y"⟩⟩]⟩] =
      ("hey", [⟨some "a", "get_weather", "xy"⟩]) :=
  ⟨by decide, by decide,
    stream_reconstruction_equivalence _ _ _ (by decide) (by decide)⟩

end L2Agent
